import Mathlib

/-!
Shallow embedding of the AESD character driver core
(`src/meta-aesd/recipes-aesd-assignments/aesdchar/files/main.c`).

Bytes are modelled as `Nat`; a heap byte buffer is a `List Nat`; a ring-log
slot is `Option (List Nat)` (`none` models a slot whose `buffptr` is `NULL`).
Fallible kernel services (interruptible mutex acquisition, `kmalloc`,
`copy_from_user` / `copy_to_user`) are modelled by Boolean fault flags that
select the failure branch the C code takes when the corresponding call fails.
The repository ships only `main.c`; the circular-buffer helpers it calls
(`aesd_circular_buffer_add_entry`,
`aesd_circular_buffer_find_entry_offset_for_fpos`) are modelled from the
specification, section 4.2.
-/

namespace Aesd

/-- Ring-log capacity `C` (spec section 3: "fixed-capacity (capacity C, default 10)"). -/
def CAPACITY : Nat := 10

/-- The delimiter byte: `'\n'` (ASCII 10), searched for at `main.c:136`. -/
def DELIM : Nat := 10

/-- `memchr(buf, c, len)` over the whole list: index of the first occurrence
of byte `c`, `none` if absent (`main.c:136`). -/
def memchr (c : Nat) : List Nat → Option Nat
  | [] => none
  | b :: rest => if b = c then some 0 else (memchr c rest).map (· + 1)

/-- Modelled from the spec: the Ring Log (spec section 3), `struct
aesd_circular_buffer` of the missing `aesd-circular-buffer.h`.  `entry` is the
fixed array of `CAPACITY` slots, `in_offs` the `write_index` (next slot to
fill) and `full` the full flag.  A slot holds `some bytes` when its `buffptr`
is non-`NULL` (the bytes it owns), `none` otherwise. -/
structure CircBuf where
  entry : List (Option (List Nat))
  in_offs : Nat
  full : Bool
deriving DecidableEq, Repr

/-- The device state of `struct aesd_dev` that `aesd_read`/`aesd_write`
touch: the ring log, and the Pending Buffer (`partial_write_buffer` together
with `partial_write_size`, the latter being the list's length;
`partial_write_buffer = NULL` is modelled by the empty list, matching
`partial_write_size = 0`). -/
structure AesdDev where
  circular_buffer : CircBuf
  partial_write_buffer : List Nat
deriving DecidableEq, Repr

/-- Well-formedness of ring-log states reachable from the empty initial log
(`aesd_init_module`, `main.c:248-251`): the slot array has length `CAPACITY`,
`in_offs` is in range, when `full` every slot is occupied, and when not
`full` exactly the slots below `in_offs` are occupied (the log fills from
slot 0 and entries are never removed without being overwritten). -/
def CircBuf.WF (buf : CircBuf) : Prop :=
  buf.entry.length = CAPACITY ∧ buf.in_offs < CAPACITY ∧
  (buf.full = true → ∀ e ∈ buf.entry, e.isSome = true) ∧
  (buf.full = false →
    (∀ e ∈ buf.entry.take buf.in_offs, e.isSome = true) ∧
    (∀ e ∈ buf.entry.drop buf.in_offs, e = none))

instance (buf : CircBuf) : Decidable buf.WF := by
  unfold CircBuf.WF; infer_instance

/-- Modelled from the spec: `aesd_circular_buffer_add_entry` (spec section
4.2, `Ingest`): overwrite the slot at `write_index` with the new entry,
advance `write_index` modulo `C`, and set `full` once `write_index` wraps
past the slot the log started filling from (slot 0, since the log starts
empty there).  Releasing the overwritten entry's bytes is done by the caller
(`main.c:170-177`) before this call. -/
def aesd_circular_buffer_add_entry (buf : CircBuf) (c : List Nat) : CircBuf :=
  { entry := buf.entry.set buf.in_offs (some c)
    in_offs := (buf.in_offs + 1) % CAPACITY
    full := buf.full || ((buf.in_offs + 1) % CAPACITY == 0) }

/-- The live entries of the ring log in FIFO (oldest-to-newest) order: when
`full`, the oldest entry is the one about to be overwritten at `in_offs`;
otherwise the log has filled slots `0..in_offs-1` from empty (spec
section 3: "the concatenation of live Entries, in FIFO order"). -/
def liveEntries (buf : CircBuf) : List (List Nat) :=
  if buf.full then
    ((buf.entry.drop buf.in_offs) ++ (buf.entry.take buf.in_offs)).filterMap id
  else
    (buf.entry.take buf.in_offs).filterMap id

/-- Walk the live entries oldest-to-newest, accumulating sizes; the target
entry is the first whose cumulative size exceeds the offset (spec section
4.2, `Resolve`). -/
def findEntryOffset (off : Nat) : List (List Nat) → Option (List Nat × Nat)
  | [] => none
  | e :: rest =>
    if off < e.length then some (e, off) else findEntryOffset (off - e.length) rest

/-- Modelled from the spec: `aesd_circular_buffer_find_entry_offset_for_fpos`
(spec section 4.2, `Resolve`): resolve a global logical byte offset to
(entry bytes, offset within that entry), failing when the offset is at or
past the total logical length. -/
def aesd_circular_buffer_find_entry_offset_for_fpos (buf : CircBuf) (off : Nat) :
    Option (List Nat × Nat) :=
  findEntryOffset off (liveEntries buf)

/-- Total logical length of the stream: sum of the live entries' sizes. -/
def totalLength (buf : CircBuf) : Nat :=
  ((liveEntries buf).map List.length).sum

/-- Return value of `aesd_write`: a non-negative accepted count, or one of
the error codes `-EFAULT`, `-ERESTARTSYS`, `-ENOMEM` the C code returns. -/
inductive WriteResult where
  | ok (count : Nat)
  | efault
  | erestartsys
  | enomem
deriving DecidableEq, Repr

/-- Fault selectors for the fallible kernel services `aesd_write` calls, in
program order: `mutex_lock_interruptible` (`main.c:117`), the `kmalloc` of
`write_buffer` (`main.c:122`), `copy_from_user` (`main.c:129`), and the
`kmalloc` of the grown buffer — `complete_buffer` (`main.c:144`) or
`new_partial_buffer` (`main.c:187`). -/
structure WriteFaults where
  lockInterrupted : Bool
  allocWriteBufFails : Bool
  copyFromUserFails : Bool
  allocGrownBufFails : Bool
deriving DecidableEq, Repr

/-- All kernel services succeed. -/
def noWriteFaults : WriteFaults := ⟨false, false, false, false⟩

/-- Outcome of a call to `aesd_write`: the return value, the device state
after the call, and the list of ring-log entry buffers `kfree`d by the call
(the eviction at `main.c:172-177`). -/
structure WriteOutcome where
  res : WriteResult
  dev : AesdDev
  released : List (List Nat)
deriving DecidableEq, Repr

/-- `aesd_write` (`main.c:96-212`).  `buf = none` models a `NULL` user
buffer; for `buf = some chunk`, `count = chunk.length`.  Mirrors the C
control flow: `NULL` check, zero-count check, interruptible lock, `kmalloc`
of `write_buffer`, `copy_from_user`, `memchr` for the delimiter; on a found
delimiter at `newline_offset` build the complete command from the pending
bytes plus the chunk up to and including the delimiter, free the evicted
entry when the log is full, add the entry, reset the pending buffer and
return `newline_offset + 1`; otherwise grow the pending buffer by the whole
chunk and return `count`. -/
def aesd_write (dev : AesdDev) (buf : Option (List Nat)) (fm : WriteFaults) :
    WriteOutcome :=
  match buf with
  | none => ⟨.efault, dev, []⟩
  | some chunk =>
    if chunk.length = 0 then ⟨.ok 0, dev, []⟩
    else if fm.lockInterrupted then ⟨.erestartsys, dev, []⟩
    else if fm.allocWriteBufFails then ⟨.enomem, dev, []⟩
    else if fm.copyFromUserFails then ⟨.efault, dev, []⟩
    else
      match memchr DELIM chunk with
      | some newline_offset =>
        if fm.allocGrownBufFails then ⟨.enomem, dev, []⟩
        else
          let complete_buffer :=
            dev.partial_write_buffer ++ chunk.take (newline_offset + 1)
          let released :=
            if dev.circular_buffer.full then
              match dev.circular_buffer.entry.getD dev.circular_buffer.in_offs none with
              | some old => [old]
              | none => []
            else []
          ⟨.ok (newline_offset + 1),
           { circular_buffer :=
               aesd_circular_buffer_add_entry dev.circular_buffer complete_buffer
             partial_write_buffer := [] },
           released⟩
      | none =>
        if fm.allocGrownBufFails then ⟨.enomem, dev, []⟩
        else
          ⟨.ok chunk.length,
           { dev with
             partial_write_buffer := dev.partial_write_buffer ++ chunk },
           []⟩

/-- Return value of `aesd_read`: the bytes delivered to the caller (the
C return value is their count; the empty list with `.ok` is the 0-byte EOF
return), or `-EFAULT` / `-ERESTARTSYS`. -/
inductive ReadResult where
  | ok (bytes : List Nat)
  | efault
  | erestartsys
deriving DecidableEq, Repr

/-- Fault selectors for the fallible kernel services `aesd_read` calls:
`mutex_lock_interruptible` (`main.c:65`) and `copy_to_user` (`main.c:84`). -/
structure ReadFaults where
  lockInterrupted : Bool
  copyToUserFails : Bool
deriving DecidableEq, Repr

/-- All kernel services succeed. -/
def noReadFaults : ReadFaults := ⟨false, false⟩

/-- Outcome of a call to `aesd_read`: the return value, the device state
after the call, and the caller's file position (`*f_pos`) after the call. -/
structure ReadOutcome where
  res : ReadResult
  dev : AesdDev
  f_pos : Nat
deriving DecidableEq, Repr

/-- `aesd_read` (`main.c:50-94`).  `bufNull` models a `NULL` user buffer.
Mirrors the C control flow: `NULL` check, interruptible lock, offset
resolution (EOF returns 0 with nothing changed), `bytes_to_read` capped at
`count`, `copy_to_user`, then advance `*f_pos` by the bytes copied. -/
def aesd_read (dev : AesdDev) (bufNull : Bool) (count : Nat) (f_pos : Nat)
    (fm : ReadFaults) : ReadOutcome :=
  if bufNull then ⟨.efault, dev, f_pos⟩
  else if fm.lockInterrupted then ⟨.erestartsys, dev, f_pos⟩
  else
    match aesd_circular_buffer_find_entry_offset_for_fpos dev.circular_buffer f_pos with
    | none => ⟨.ok [], dev, f_pos⟩
    | some (entry, entry_offset_byte) =>
      let bytes_to_read := min (entry.length - entry_offset_byte) count
      if fm.copyToUserFails then ⟨.efault, dev, f_pos⟩
      else
        ⟨.ok ((entry.drop entry_offset_byte).take bytes_to_read), dev,
         f_pos + bytes_to_read⟩

/-! ### Helper lemmas -/

theorem memchr_lt_length {c : Nat} {l : List Nat} {d : Nat}
    (h : memchr c l = some d) : d < l.length := by
  induction l generalizing d with
  | nil => simp [memchr] at h
  | cons b rest ih =>
    rw [memchr] at h
    by_cases hb : b = c
    · rw [if_pos hb] at h
      injection h with h
      subst h
      simp
    · rw [if_neg hb] at h
      obtain ⟨d', hd', hd⟩ := Option.map_eq_some'.mp h
      subst hd
      have := ih hd'
      simp
      omega

theorem memchr_take {c : Nat} {l : List Nat} {d : Nat}
    (h : memchr c l = some d) : memchr c (l.take (d + 1)) = some d := by
  induction l generalizing d with
  | nil => simp [memchr] at h
  | cons b rest ih =>
    rw [memchr] at h
    by_cases hb : b = c
    · rw [if_pos hb] at h
      injection h with h
      subst h
      simp [memchr, hb]
    · rw [if_neg hb] at h
      obtain ⟨d', hd', hd⟩ := Option.map_eq_some'.mp h
      subst hd
      rw [List.take_succ_cons, memchr, if_neg hb, ih hd']
      rfl

theorem findEntryOffset_mem {off : Nat} {es : List (List Nat)}
    {e : List Nat} {o : Nat} (h : findEntryOffset off es = some (e, o)) :
    e ∈ es ∧ o < e.length := by
  induction es generalizing off with
  | nil => simp [findEntryOffset] at h
  | cons a rest ih =>
    by_cases ha : off < a.length
    · simp [findEntryOffset, ha] at h
      obtain ⟨rfl, rfl⟩ := h
      exact ⟨List.mem_cons_self _ _, ha⟩
    · simp [findEntryOffset, ha] at h
      obtain ⟨hmem, ho⟩ := ih h
      exact ⟨List.mem_cons_of_mem _ hmem, ho⟩

theorem findEntryOffset_none {off : Nat} {es : List (List Nat)}
    (h : (es.map List.length).sum ≤ off) : findEntryOffset off es = none := by
  induction es generalizing off with
  | nil => simp [findEntryOffset]
  | cons a rest ih =>
    simp at h
    have ha : ¬ off < a.length := by omega
    simp [findEntryOffset, ha]
    exact ih (by omega)

theorem liveEntries_full_head {buf : CircBuf} (hWF : buf.WF)
    (hf : buf.full = true) :
    ∃ old, buf.entry.getD buf.in_offs none = some old ∧
      liveEntries buf = old :: (liveEntries buf).drop 1 := by
  obtain ⟨hlen, hi, hfull, -⟩ := hWF
  have hiL : buf.in_offs < buf.entry.length := by omega
  have hmem : buf.entry[buf.in_offs] ∈ buf.entry := List.getElem_mem hiL
  obtain ⟨old, hold⟩ := Option.isSome_iff_exists.mp (hfull hf _ hmem)
  refine ⟨old, ?_, ?_⟩
  · simp [List.getD_eq_getElem?_getD, List.getElem?_eq_getElem hiL, hold]
  · have hdrop : buf.entry.drop buf.in_offs
        = buf.entry[buf.in_offs] :: buf.entry.drop (buf.in_offs + 1) :=
      List.drop_eq_getElem_cons hiL
    simp [liveEntries, hf, hdrop, hold]

theorem liveEntries_add {buf : CircBuf} (hWF : buf.WF) (c : List Nat) :
    liveEntries (aesd_circular_buffer_add_entry buf c) =
      (if buf.full then (liveEntries buf).drop 1 else liveEntries buf) ++ [c] := by
  obtain ⟨hlen, hi, hfull, -⟩ := hWF
  have hiL : buf.in_offs < buf.entry.length := by omega
  have hset : buf.entry.set buf.in_offs (some c)
      = (buf.entry.take buf.in_offs ++ [some c]) ++ buf.entry.drop (buf.in_offs + 1) := by
    rw [List.set_eq_take_cons_drop _ hiL]
    simp
  have hAlen : (buf.entry.take buf.in_offs ++ [some c]).length = buf.in_offs + 1 := by
    simp [List.length_take]
    omega
  have hdrop : buf.entry.drop buf.in_offs
      = buf.entry[buf.in_offs] :: buf.entry.drop (buf.in_offs + 1) :=
    List.drop_eq_getElem_cons hiL
  by_cases h9 : buf.in_offs + 1 = CAPACITY
  · -- the write index wraps to 0 and the log becomes (or stays) full
    have hB : buf.entry.drop (buf.in_offs + 1) = [] :=
      List.drop_eq_nil_of_le (by omega)
    have hmod : (buf.in_offs + 1) % CAPACITY = 0 := by
      rw [h9]; exact Nat.mod_self _
    by_cases hf : buf.full = true
    · obtain ⟨old, hold⟩ := Option.isSome_iff_exists.mp
        (hfull hf _ (List.getElem_mem hiL))
      simp only [liveEntries, aesd_circular_buffer_add_entry, hf, hmod,
        Bool.true_or, if_pos, List.drop_zero, List.take_zero, List.append_nil,
        hset, hB, hdrop, hold]
      simp [List.filterMap_append]
    · have hf' : buf.full = false := by
        revert hf; cases buf.full <;> simp
      simp only [liveEntries, aesd_circular_buffer_add_entry, hf', hmod,
        Bool.false_or, beq_self_eq_true, if_pos, if_neg, Bool.false_eq_true,
        not_false_iff, List.drop_zero, List.take_zero, List.append_nil,
        hset, hB]
      simp [List.filterMap_append]
  · -- no wrap: the write index advances to in_offs + 1
    have hmod : (buf.in_offs + 1) % CAPACITY = buf.in_offs + 1 :=
      Nat.mod_eq_of_lt (by omega)
    have hne0 : ((buf.in_offs + 1) % CAPACITY == 0) = false := by
      simp [hmod]
    have htake : (buf.entry.set buf.in_offs (some c)).take (buf.in_offs + 1)
        = buf.entry.take buf.in_offs ++ [some c] := by
      rw [hset]
      exact List.take_left' hAlen
    have hdrop' : (buf.entry.set buf.in_offs (some c)).drop (buf.in_offs + 1)
        = buf.entry.drop (buf.in_offs + 1) := by
      rw [hset]
      exact List.drop_left' hAlen
    by_cases hf : buf.full = true
    · obtain ⟨old, hold⟩ := Option.isSome_iff_exists.mp
        (hfull hf _ (List.getElem_mem hiL))
      simp only [liveEntries, aesd_circular_buffer_add_entry, hf,
        Bool.true_or, if_pos, hmod, htake, hdrop', hdrop, hold]
      simp [List.filterMap_append]
    · have hf' : buf.full = false := by
        revert hf; cases buf.full <;> simp
      simp only [liveEntries, aesd_circular_buffer_add_entry, hf', hmod, hne0,
        Bool.false_or, if_neg, Bool.false_eq_true, not_false_iff, htake]
      simp [List.filterMap_append]

/-! ### Concrete device states used by the witnesses -/

/-- The freshly initialized device: empty ring log, empty pending buffer. -/
def devEmpty : AesdDev :=
  ⟨⟨List.replicate CAPACITY none, 0, false⟩, []⟩

/-- A device holding two completed commands, "hi\n" and "a\n". -/
def devTwo : AesdDev :=
  ⟨⟨[some [104, 105, 10], some [97, 10],
     none, none, none, none, none, none, none, none], 2, false⟩, []⟩

/-- A device whose ring log is full: ten two-byte commands. -/
def devFull : AesdDev :=
  ⟨⟨(List.range CAPACITY).map (fun i => some [65 + i, DELIM]), 0, true⟩, []⟩

/-! ### Claim theorems -/

/-- **C4**: a write whose non-empty chunk contains no delimiter completes no
command and ingests no entry; the pending buffer becomes its prior contents
followed by the entire chunk (length grows by exactly `len(chunk)`), and the
call returns accepted count `len(chunk)` (`main.c:184-207`). -/
theorem write_no_delimiter_appends_pending (dev : AesdDev) (chunk : List Nat)
    (hne : chunk ≠ []) (hmc : memchr DELIM chunk = none) :
    aesd_write dev (some chunk) noWriteFaults =
      ⟨.ok chunk.length,
       { circular_buffer := dev.circular_buffer
         partial_write_buffer := dev.partial_write_buffer ++ chunk }, []⟩ ∧
    (dev.partial_write_buffer ++ chunk).length
      = dev.partial_write_buffer.length + chunk.length := by
  have hlen : ¬ chunk.length = 0 := by simpa using hne
  constructor
  · simp [aesd_write, noWriteFaults, hlen, hmc]
  · simp

/-- **C4 witness**: writing "ab" (no delimiter) to the empty device. -/
theorem write_no_delimiter_appends_pending_witness :
    [97, 98] ≠ ([] : List Nat) ∧ memchr DELIM [97, 98] = none ∧
    (aesd_write devEmpty (some [97, 98]) noWriteFaults =
      ⟨.ok 2,
       { circular_buffer := devEmpty.circular_buffer
         partial_write_buffer := devEmpty.partial_write_buffer ++ [97, 98] }, []⟩ ∧
     (devEmpty.partial_write_buffer ++ [97, 98]).length
       = devEmpty.partial_write_buffer.length + 2) :=
  ⟨by decide, by decide,
   write_no_delimiter_appends_pending devEmpty [97, 98] (by decide) (by decide)⟩

/-- **C5**: if allocating the grown buffer (the completed-command buffer at
`main.c:144` or the enlarged pending buffer at `main.c:187`) fails, the write
returns `-ENOMEM`, the device state (pending buffer and ring log) is exactly
as before the call, and no entry buffer is released. -/
theorem write_alloc_failure_unchanged (dev : AesdDev) (chunk : List Nat)
    (hne : chunk ≠ []) (fm : WriteFaults)
    (h1 : fm.lockInterrupted = false) (h2 : fm.allocWriteBufFails = false)
    (h3 : fm.copyFromUserFails = false) (h4 : fm.allocGrownBufFails = true) :
    aesd_write dev (some chunk) fm = ⟨.enomem, dev, []⟩ := by
  have hlen : ¬ chunk.length = 0 := by simpa using hne
  cases hmc : memchr DELIM chunk <;>
    simp [aesd_write, hlen, h1, h2, h3, h4, hmc]

/-- **C5 witness**: the grown-buffer allocation fails on a delimiter write. -/
theorem write_alloc_failure_unchanged_witness :
    [97, 10] ≠ ([] : List Nat) ∧
    aesd_write devTwo (some [97, 10]) ⟨false, false, false, true⟩
      = ⟨.enomem, devTwo, []⟩ :=
  ⟨by decide,
   write_alloc_failure_unchanged devTwo [97, 10] (by decide)
     ⟨false, false, false, true⟩ rfl rfl rfl rfl⟩

/-- **C6**: a read whose offset is at or past the total logical length fails
to resolve and returns 0 bytes as a success (logical EOF, `main.c:72-75`),
leaving the device state and the caller's file position unchanged. -/
theorem read_past_end_returns_zero (dev : AesdDev) (count f_pos : Nat)
    (cf : Bool) (h : totalLength dev.circular_buffer ≤ f_pos) :
    aesd_read dev false count f_pos ⟨false, cf⟩ = ⟨.ok [], dev, f_pos⟩ := by
  have hres : aesd_circular_buffer_find_entry_offset_for_fpos
      dev.circular_buffer f_pos = none :=
    findEntryOffset_none (by simpa [totalLength] using h)
  simp [aesd_read, aesd_circular_buffer_find_entry_offset_for_fpos] at hres ⊢
  simp [hres]

/-- **C6 witness**: reading at offset 5 of a device holding 5 logical bytes. -/
theorem read_past_end_returns_zero_witness :
    totalLength devTwo.circular_buffer ≤ 5 ∧
    aesd_read devTwo false 100 5 ⟨false, false⟩ = ⟨.ok [], devTwo, 5⟩ :=
  ⟨by decide, read_past_end_returns_zero devTwo 100 5 false (by decide)⟩

/-- **C7**: when the interruptible acquisition of the device mutex is
cancelled by a signal, both `aesd_read` (`main.c:65-67`) and `aesd_write`
(`main.c:117-119`) return `-ERESTARTSYS` — a restart condition distinct from
the ordinary error returns — without touching the pending buffer, the ring
log, or the caller's file position, and without releasing any entry. -/
theorem interrupted_lock_aborts_untouched (dev : AesdDev) (chunk : List Nat)
    (hne : chunk ≠ []) (wfm : WriteFaults) (hw : wfm.lockInterrupted = true)
    (count f_pos : Nat) (rfm : ReadFaults) (hr : rfm.lockInterrupted = true) :
    aesd_write dev (some chunk) wfm = ⟨.erestartsys, dev, []⟩ ∧
    aesd_read dev false count f_pos rfm = ⟨.erestartsys, dev, f_pos⟩ := by
  have hlen : ¬ chunk.length = 0 := by simpa using hne
  constructor
  · simp [aesd_write, hlen, hw]
  · simp [aesd_read, hr]

/-- **C7 witness**: an interrupted lock wait on a write of "a\n" and on a
read of 4 bytes at offset 0. -/
theorem interrupted_lock_aborts_untouched_witness :
    [97, 10] ≠ ([] : List Nat) ∧
    (aesd_write devTwo (some [97, 10]) ⟨true, false, false, false⟩
       = ⟨.erestartsys, devTwo, []⟩ ∧
     aesd_read devTwo false 4 0 ⟨true, false⟩ = ⟨.erestartsys, devTwo, 0⟩) :=
  ⟨by decide,
   interrupted_lock_aborts_untouched devTwo [97, 10] (by decide)
     ⟨true, false, false, false⟩ rfl 4 0 ⟨true, false⟩ rfl⟩

/-- **C9**: a `NULL` caller buffer is rejected with `-EFAULT` before the
lock is taken and before any allocation, for both entry points
(`main.c:61-63`, `main.c:109-111`): the rejection happens for every fault
configuration, including ones where the lock wait would be interrupted or an
allocation would fail, and leaves the device state, the caller's file
position, and the ring log untouched. -/
theorem null_buffer_rejected_first (dev : AesdDev) (wfm : WriteFaults)
    (rfm : ReadFaults) (count f_pos : Nat) :
    aesd_write dev none wfm = ⟨.efault, dev, []⟩ ∧
    aesd_read dev true count f_pos rfm = ⟨.efault, dev, f_pos⟩ :=
  ⟨rfl, rfl⟩

/-- **C9 witness**: a `NULL`-buffer write and read against `devTwo`. -/
theorem null_buffer_rejected_first_witness :
    aesd_write devTwo none ⟨true, true, true, true⟩ = ⟨.efault, devTwo, []⟩ ∧
    aesd_read devTwo true 7 3 ⟨true, true⟩ = ⟨.efault, devTwo, 3⟩ :=
  null_buffer_rejected_first devTwo ⟨true, true, true, true⟩ ⟨true, true⟩ 7 3

/-- **C2**: a read that resolves to an entry with in-entry offset `o`
returns exactly `min(count, entry.size - o)` bytes, and every returned byte
comes from that single resolved entry (the returned bytes are the
contiguous slice of the entry starting at `o`): a read never spans into the
next entry even when `count` is larger (`main.c:70-90`). -/
theorem read_single_entry_bound (dev : AesdDev) (count f_pos : Nat)
    (e : List Nat) (o : Nat)
    (hres : aesd_circular_buffer_find_entry_offset_for_fpos
        dev.circular_buffer f_pos = some (e, o)) :
    (aesd_read dev false count f_pos noReadFaults).res
        = .ok ((e.drop o).take (min count (e.length - o))) ∧
    (∀ bs, (aesd_read dev false count f_pos noReadFaults).res = .ok bs →
      bs.length = min count (e.length - o) ∧
      e = e.take o ++ bs ++ e.drop (o + min count (e.length - o))) := by
  have hmin : min (e.length - o) count = min count (e.length - o) :=
    Nat.min_comm _ _
  have hread : aesd_read dev false count f_pos noReadFaults
      = ⟨.ok ((e.drop o).take (min count (e.length - o))), dev,
         f_pos + min (e.length - o) count⟩ := by
    simp [aesd_read, noReadFaults, hres, hmin]
  refine ⟨by rw [hread], ?_⟩
  intro bs hbs
  rw [hread] at hbs
  injection hbs with hbs
  subst hbs
  constructor
  · simp
  · have hdecomp : e.take (o + min count (e.length - o))
        = e.take o ++ (e.drop o).take (min count (e.length - o)) :=
      List.take_add e o (min count (e.length - o))
    calc e = e.take (o + min count (e.length - o))
             ++ e.drop (o + min count (e.length - o)) :=
            (List.take_append_drop _ e).symm
    _ = e.take o ++ (e.drop o).take (min count (e.length - o))
          ++ e.drop (o + min count (e.length - o)) := by rw [hdecomp]
    _ = _ := by simp

/-- **C2 witness**: reading 100 bytes at offset 1 of `devTwo` resolves into
the first entry "hi\n" at in-entry offset 1 and returns its 2-byte tail
only, not crossing into the second entry. -/
theorem read_single_entry_bound_witness :
    aesd_circular_buffer_find_entry_offset_for_fpos
        devTwo.circular_buffer 1 = some ([104, 105, 10], 1) ∧
    ((aesd_read devTwo false 100 1 noReadFaults).res
        = .ok (([104, 105, 10].drop 1).take (min 100 ([104, 105, 10].length - 1))) ∧
     (∀ bs, (aesd_read devTwo false 100 1 noReadFaults).res = .ok bs →
       bs.length = min 100 ([104, 105, 10].length - 1) ∧
       [104, 105, 10] = [104, 105, 10].take 1 ++ bs
         ++ [104, 105, 10].drop (1 + min 100 ([104, 105, 10].length - 1)))) :=
  ⟨by decide, read_single_entry_bound devTwo 100 1 [104, 105, 10] 1 (by decide)⟩

/-- **C10**: `aesd_read` never mutates the device state (ring log and
pending buffer); the only thing it may change is the caller's file
position, which advances by exactly the number of bytes returned on a
successful return and is unchanged on every error return (`main.c:50-94`). -/
theorem read_frame_condition (dev : AesdDev) (bufNull : Bool) (count f_pos : Nat)
    (fm : ReadFaults) :
    (aesd_read dev bufNull count f_pos fm).dev = dev ∧
    (∀ bs, (aesd_read dev bufNull count f_pos fm).res = .ok bs →
      (aesd_read dev bufNull count f_pos fm).f_pos = f_pos + bs.length) ∧
    ((∀ bs, (aesd_read dev bufNull count f_pos fm).res ≠ .ok bs) →
      (aesd_read dev bufNull count f_pos fm).f_pos = f_pos) := by
  cases bufNull with
  | true => simp [aesd_read]
  | false =>
    cases hl : fm.lockInterrupted with
    | true => simp [aesd_read, hl]
    | false =>
      cases hres : aesd_circular_buffer_find_entry_offset_for_fpos
          dev.circular_buffer f_pos with
      | none => simp [aesd_read, hl, hres]
      | some p =>
        obtain ⟨e, o⟩ := p
        cases hc : fm.copyToUserFails with
        | true => simp [aesd_read, hl, hres, hc]
        | false =>
          have hlen : ((e.drop o).take (min (e.length - o) count)).length
              = min (e.length - o) count := by
            simp
          refine ⟨by simp [aesd_read, hl, hres, hc], ?_, ?_⟩
          · intro bs hbs
            simp [aesd_read, hl, hres, hc] at hbs ⊢
            rw [← hbs, hlen]
          · intro hnone
            exact absurd (show (aesd_read dev false count f_pos fm).res
                  = .ok ((e.drop o).take (min (e.length - o) count)) by
                simp [aesd_read, hl, hres, hc]) (hnone _)

/-- **C10 witness**: a successful 2-byte read at offset 1 of `devTwo`. -/
theorem read_frame_condition_witness :
    (aesd_read devTwo false 2 1 ⟨false, false⟩).dev = devTwo ∧
    (∀ bs, (aesd_read devTwo false 2 1 ⟨false, false⟩).res = .ok bs →
      (aesd_read devTwo false 2 1 ⟨false, false⟩).f_pos = 1 + bs.length) ∧
    ((∀ bs, (aesd_read devTwo false 2 1 ⟨false, false⟩).res ≠ .ok bs) →
      (aesd_read devTwo false 2 1 ⟨false, false⟩).f_pos = 1) :=
  read_frame_condition devTwo false 2 1 ⟨false, false⟩

/-- **C8**: a write of zero bytes is a no-op returning 0 and never produces
an entry (`main.c:113-115`); every entry ingested by a delimiter-completing
write has size `priorPending + d + 1 ≥ 1` (`main.c:141`); consequently every
live entry has strictly positive byte length after every write, for every
fault configuration, whenever it did before the call. -/
theorem live_entries_positive_length (dev : AesdDev)
    (hWF : dev.circular_buffer.WF)
    (hpos : ∀ e ∈ liveEntries dev.circular_buffer, 0 < e.length)
    (buf : Option (List Nat)) (fm : WriteFaults) :
    aesd_write dev (some []) fm = ⟨.ok 0, dev, []⟩ ∧
    (∀ e ∈ liveEntries (aesd_write dev buf fm).dev.circular_buffer,
      0 < e.length) ∧
    (∀ chunk d, memchr DELIM chunk = some d →
      (dev.partial_write_buffer ++ chunk.take (d + 1)).length
        = dev.partial_write_buffer.length + (d + 1)) := by
  have hsize : ∀ chunk d, memchr DELIM chunk = some d →
      (dev.partial_write_buffer ++ chunk.take (d + 1)).length
        = dev.partial_write_buffer.length + (d + 1) := by
    intro chunk d hd
    have := memchr_lt_length hd
    simp
    omega
  refine ⟨by simp [aesd_write], ?_, hsize⟩
  match buf with
  | none => exact hpos
  | some chunk =>
    by_cases h0 : chunk.length = 0
    · simpa [aesd_write, h0] using hpos
    · cases hl : fm.lockInterrupted with
      | true => simpa [aesd_write, h0, hl] using hpos
      | false =>
        cases ha1 : fm.allocWriteBufFails with
        | true => simpa [aesd_write, h0, hl, ha1] using hpos
        | false =>
          cases hcf : fm.copyFromUserFails with
          | true => simpa [aesd_write, h0, hl, ha1, hcf] using hpos
          | false =>
            cases hmc : memchr DELIM chunk with
            | none =>
              cases ha2 : fm.allocGrownBufFails with
              | true => simpa [aesd_write, h0, hl, ha1, hcf, hmc, ha2] using hpos
              | false => simpa [aesd_write, h0, hl, ha1, hcf, hmc, ha2] using hpos
            | some d =>
              cases ha2 : fm.allocGrownBufFails with
              | true => simpa [aesd_write, h0, hl, ha1, hcf, hmc, ha2] using hpos
              | false =>
                intro e he
                have hdev : (aesd_write dev (some chunk) fm).dev.circular_buffer
                    = aesd_circular_buffer_add_entry dev.circular_buffer
                        (dev.partial_write_buffer ++ chunk.take (d + 1)) := by
                  simp [aesd_write, h0, hl, ha1, hcf, hmc, ha2]
                rw [hdev, liveEntries_add hWF] at he
                rcases List.mem_append.mp he with hmem | hmem
                · by_cases hf : dev.circular_buffer.full = true
                  · rw [if_pos hf] at hmem
                    exact hpos e (List.mem_of_mem_drop hmem)
                  · rw [if_neg hf] at hmem
                    exact hpos e hmem
                · rw [List.mem_singleton.mp hmem]
                  have := hsize chunk d hmc
                  omega

/-- **C8 witness**: `devTwo` (all entries non-empty) after writing "b\n". -/
theorem live_entries_positive_length_witness :
    devTwo.circular_buffer.WF ∧
    (∀ e ∈ liveEntries devTwo.circular_buffer, 0 < e.length) ∧
    (aesd_write devTwo (some []) noWriteFaults = ⟨.ok 0, devTwo, []⟩ ∧
     (∀ e ∈ liveEntries
        (aesd_write devTwo (some [98, 10]) noWriteFaults).dev.circular_buffer,
       0 < e.length) ∧
     (∀ chunk d, memchr DELIM chunk = some d →
       (devTwo.partial_write_buffer ++ chunk.take (d + 1)).length
         = devTwo.partial_write_buffer.length + (d + 1))) :=
  ⟨by decide, by decide,
   live_entries_positive_length devTwo (by decide) (by decide)
     (some [98, 10]) noWriteFaults⟩

theorem write_delimiter_eval (dev : AesdDev) (chunk : List Nat) (d : Nat)
    (h0 : ¬ chunk.length = 0) (hd : memchr DELIM chunk = some d) :
    aesd_write dev (some chunk) noWriteFaults
      = ⟨.ok (d + 1),
         { circular_buffer := aesd_circular_buffer_add_entry dev.circular_buffer
             (dev.partial_write_buffer ++ chunk.take (d + 1))
           partial_write_buffer := [] },
         if dev.circular_buffer.full then
           match dev.circular_buffer.entry.getD dev.circular_buffer.in_offs none with
           | some old => [old]
           | none => []
         else []⟩ := by
  simp [aesd_write, noWriteFaults, h0, hd]

/-- **C1**: a write whose chunk contains the delimiter, first at offset `d`,
ingests exactly one command — the pending bytes followed by
`chunk[0..=d]` — of length `priorPending + d + 1` into the ring log, resets
the pending buffer to empty, and returns accepted count `d + 1`; the chunk
bytes after offset `d` are absent from the new pending buffer and from every
entry: the entire outcome coincides with that of writing only
`chunk.take (d + 1)` (`main.c:136-183`). -/
theorem write_delimiter_completes_one_command (dev : AesdDev)
    (chunk : List Nat) (d : Nat) (hWF : dev.circular_buffer.WF)
    (hd : memchr DELIM chunk = some d) :
    (aesd_write dev (some chunk) noWriteFaults).res = .ok (d + 1) ∧
    (aesd_write dev (some chunk) noWriteFaults).dev.partial_write_buffer = [] ∧
    liveEntries (aesd_write dev (some chunk) noWriteFaults).dev.circular_buffer
      = (if dev.circular_buffer.full then (liveEntries dev.circular_buffer).drop 1
         else liveEntries dev.circular_buffer)
          ++ [dev.partial_write_buffer ++ chunk.take (d + 1)] ∧
    (dev.partial_write_buffer ++ chunk.take (d + 1)).length
      = dev.partial_write_buffer.length + d + 1 ∧
    aesd_write dev (some chunk) noWriteFaults
      = aesd_write dev (some (chunk.take (d + 1))) noWriteFaults := by
  have hdlt := memchr_lt_length hd
  have h0 : ¬ chunk.length = 0 := by omega
  have hwrite := write_delimiter_eval dev chunk d h0 hd
  have ht : memchr DELIM (chunk.take (d + 1)) = some d := memchr_take hd
  have h0' : ¬ (chunk.take (d + 1)).length = 0 := by
    rw [List.length_take]
    omega
  have htt : (chunk.take (d + 1)).take (d + 1) = chunk.take (d + 1) := by
    rw [List.take_take, Nat.min_self]
  have hwrite' := write_delimiter_eval dev (chunk.take (d + 1)) d h0' ht
  refine ⟨by rw [hwrite], by rw [hwrite], ?_, ?_, ?_⟩
  · rw [hwrite]
    exact liveEntries_add hWF _
  · simp
    omega
  · rw [hwrite, hwrite', htt]

/-- **C1 witness**: writing "a\nb" to the empty device: accepted count 2,
one entry "a\n" ingested, the trailing "b" nowhere retained. -/
theorem write_delimiter_completes_one_command_witness :
    devEmpty.circular_buffer.WF ∧ memchr DELIM [97, 10, 98] = some 1 ∧
    ((aesd_write devEmpty (some [97, 10, 98]) noWriteFaults).res = .ok 2 ∧
     (aesd_write devEmpty (some [97, 10, 98]) noWriteFaults).dev.partial_write_buffer
       = [] ∧
     liveEntries (aesd_write devEmpty (some [97, 10, 98]) noWriteFaults).dev.circular_buffer
       = (if devEmpty.circular_buffer.full
          then (liveEntries devEmpty.circular_buffer).drop 1
          else liveEntries devEmpty.circular_buffer)
           ++ [devEmpty.partial_write_buffer ++ [97, 10, 98].take 2] ∧
     (devEmpty.partial_write_buffer ++ [97, 10, 98].take 2).length
       = devEmpty.partial_write_buffer.length + 1 + 1 ∧
     aesd_write devEmpty (some [97, 10, 98]) noWriteFaults
       = aesd_write devEmpty (some ([97, 10, 98].take 2)) noWriteFaults) :=
  ⟨by decide, by decide,
   write_delimiter_completes_one_command devEmpty [97, 10, 98] 1
     (by decide) (by decide)⟩

/-- **C3**: when a completed command is ingested with the ring log full, the
bytes of exactly one existing entry — the oldest live entry, occupying slot
`in_offs` — are released (`main.c:170-177`) before the slot is overwritten,
and every subsequent resolution reaches only the new live entries, which no
longer include the released slot's entry; when the log is not full, no entry
is released. -/
theorem write_full_evicts_oldest (dev : AesdDev) (chunk : List Nat) (d : Nat)
    (hWF : dev.circular_buffer.WF) (hd : memchr DELIM chunk = some d) :
    (dev.circular_buffer.full = true →
      ∃ old,
        dev.circular_buffer.entry.getD dev.circular_buffer.in_offs none
          = some old ∧
        liveEntries dev.circular_buffer
          = old :: (liveEntries dev.circular_buffer).drop 1 ∧
        (aesd_write dev (some chunk) noWriteFaults).released = [old] ∧
        liveEntries (aesd_write dev (some chunk) noWriteFaults).dev.circular_buffer
          = (liveEntries dev.circular_buffer).drop 1
              ++ [dev.partial_write_buffer ++ chunk.take (d + 1)] ∧
        ∀ off e o,
          aesd_circular_buffer_find_entry_offset_for_fpos
              (aesd_write dev (some chunk) noWriteFaults).dev.circular_buffer off
            = some (e, o) →
          e ∈ (liveEntries dev.circular_buffer).drop 1
              ++ [dev.partial_write_buffer ++ chunk.take (d + 1)]) ∧
    (dev.circular_buffer.full = false →
      (aesd_write dev (some chunk) noWriteFaults).released = []) := by
  have hdlt := memchr_lt_length hd
  have h0 : ¬ chunk.length = 0 := by omega
  have hwrite := write_delimiter_eval dev chunk d h0 hd
  have hlive : liveEntries (aesd_write dev (some chunk) noWriteFaults).dev.circular_buffer
      = (if dev.circular_buffer.full then (liveEntries dev.circular_buffer).drop 1
         else liveEntries dev.circular_buffer)
          ++ [dev.partial_write_buffer ++ chunk.take (d + 1)] := by
    rw [hwrite]
    exact liveEntries_add hWF _
  constructor
  · intro hf
    obtain ⟨old, hold, hhead⟩ := liveEntries_full_head hWF hf
    rw [if_pos hf] at hlive
    refine ⟨old, hold, hhead, ?_, hlive, ?_⟩
    · rw [hwrite]
      dsimp only
      rw [if_pos hf, hold]
    · intro off e o hro
      rw [aesd_circular_buffer_find_entry_offset_for_fpos, hlive] at hro
      exact (findEntryOffset_mem hro).1
  · intro hf
    rw [hwrite]
    simp [hf]

/-- **C3 witness**: ingesting an eleventh command "b\n" into the full
`devFull` releases exactly its oldest entry "A\n". -/
theorem write_full_evicts_oldest_witness :
    devFull.circular_buffer.WF ∧ memchr DELIM [98, 10] = some 1 ∧
    ((devFull.circular_buffer.full = true →
      ∃ old,
        devFull.circular_buffer.entry.getD devFull.circular_buffer.in_offs none
          = some old ∧
        liveEntries devFull.circular_buffer
          = old :: (liveEntries devFull.circular_buffer).drop 1 ∧
        (aesd_write devFull (some [98, 10]) noWriteFaults).released = [old] ∧
        liveEntries (aesd_write devFull (some [98, 10]) noWriteFaults).dev.circular_buffer
          = (liveEntries devFull.circular_buffer).drop 1
              ++ [devFull.partial_write_buffer ++ [98, 10].take 2] ∧
        ∀ off e o,
          aesd_circular_buffer_find_entry_offset_for_fpos
              (aesd_write devFull (some [98, 10]) noWriteFaults).dev.circular_buffer off
            = some (e, o) →
          e ∈ (liveEntries devFull.circular_buffer).drop 1
              ++ [devFull.partial_write_buffer ++ [98, 10].take 2]) ∧
     (devFull.circular_buffer.full = false →
      (aesd_write devFull (some [98, 10]) noWriteFaults).released = [])) :=
  ⟨by decide, by decide,
   write_full_evicts_oldest devFull [98, 10] 1 (by decide) (by decide)⟩

end Aesd
